import Mathlib

/- Verification development for the microsoft-graph-dump tool (src/main.rs).
The Rust program walks an organizational directory: it fetches a user's
direct reports page by page, emits one CSV-like row per reportee to
standard output, and recurses depth-first into each reportee.  The
definitions below are a shallow embedding of that program: the HTTP layer
is abstracted as a function from a URL to a response, and the recursive
traversal is given explicit fuel (the Rust recursion is unbounded). -/

namespace MGraph

/-- Embeds the Rust struct User (src/main.rs lines 10-19): identity and
profile snapshot with four optional fields. -/
structure User where
  id : String
  display_name : String
  job_title : Option String
  department : Option String
  mail : Option String
  office_location : Option String
deriving DecidableEq

/-- Embeds the Rust struct UsersResponse (src/main.rs lines 21-27): one
page of users plus the optional odata continuation link. -/
structure UsersResponse where
  value : List User
  next_link : Option String
deriving DecidableEq

/-- Boolean test that the pattern list is an initial segment of the
second list; helper for the substring test used by str::contains. -/
def startsWithChars : List Char → List Char → Bool
  | [], _ => true
  | _ :: _, [] => false
  | p :: ps, c :: cs => p == c && startsWithChars ps cs

/-- Boolean substring containment on character lists: some suffix of the
second list starts with the pattern.  Model of Rust str::contains. -/
def containsChars (pat : List Char) : List Char → Bool
  | [] => pat.isEmpty
  | c :: rest => startsWithChars pat (c :: rest) || containsChars pat rest

/-- Model of the Rust expression s.contains(pat) for string slices. -/
def strContains (s pat : String) : Bool :=
  containsChars pat.data s.data

/-- Embeds User::get_email (src/main.rs lines 160-162). -/
def User.get_email (u : User) : String :=
  u.mail.getD "unknown"

/-- Embeds User::get_department (src/main.rs lines 164-166). -/
def User.get_department (u : User) : String :=
  u.department.getD "unknown"

/-- Embeds User::get_job_title (src/main.rs lines 168-170). -/
def User.get_job_title (u : User) : String :=
  u.job_title.getD "unknown"

/-- Embeds User::get_office_location (src/main.rs lines 172-174). -/
def User.get_office_location (u : User) : String :=
  u.office_location.getD "unknown"

/-- Embeds User::get_category (src/main.rs lines 176-198): substitutes
the sentinel for absent fields, then classifies by case-sensitive
substring tests, returning the pair (employment_type, location). -/
def User.get_category (u : User) : String × String :=
  let job_title := u.job_title.getD "unknown"
  let office_location := u.office_location.getD "unknown"
  let employment_type :=
    if ["CONSULT", "OUTSOURCE", "Outsource"].any (fun kw => strContains job_title kw) then
      "Vendor"
    else
      "Employee"
  let location :=
    if ["Off-Shore", "Off-Site"].any (fun kw => strContains office_location kw) then
      "Off-Shore"
    else
      "On-Site"
  (employment_type, location)

/-- Embeds the Display implementation for User (src/main.rs lines
201-221): the eight comma-and-space joined fields of one output row. -/
def User.display (u : User) : String :=
  u.id ++ ", " ++ u.display_name ++ ", " ++ u.get_email ++ ", " ++
    u.get_job_title ++ ", " ++ u.get_department ++ ", " ++
    u.get_office_location ++ ", " ++ (u.get_category).1 ++ ", " ++
    (u.get_category).2

/-- Joins field values with the two-character delimiter used by the row
formatter. -/
def sepJoin : List String → String
  | [] => ""
  | [f] => f
  | f :: g :: rest => f ++ ", " ++ sepJoin (g :: rest)

/-- The eight field values of a user row, in the fixed order rendered by
the Display implementation. -/
def fieldsOf (u : User) : List String :=
  [u.id, u.display_name, u.get_email, u.get_job_title, u.get_department,
   u.get_office_location, (u.get_category).1, (u.get_category).2]

/-- The ten field values of a reportee row: the user fields followed by
the manager id and manager display name (src/main.rs line 136). -/
def rowFields (u manager : User) : List String :=
  fieldsOf u ++ [manager.id, manager.display_name]

/-- One reportee output row as printed by the traversal (src/main.rs
line 136): the user row plus manager id and manager display name. -/
def rowLine (u manager : User) : String :=
  u.display ++ ", " ++ manager.id ++ ", " ++ manager.display_name

/-- The fixed header row printed by main (src/main.rs line 76). -/
def headerLine : String :=
  "id, display_name, mail, job_title, department, office_location, employment_type, location, manager_id, manager_display_name"

/-- The root user's row printed by main (src/main.rs line 77), with the
sentinel manager fields. -/
def rootLine (u : User) : String :=
  u.display ++ ", none, none"

/-- The fixed capacity of the request semaphore (src/main.rs line 84). -/
def MAX_CONCURRENT_REQUESTS : Nat := 10

/-- One raw HTTP response from the directory service: numeric status,
body text, and the result of decoding the body as a UsersResponse
(none when the body does not deserialize). -/
structure HttpResponse where
  status : Nat
  body : String
  parsed : Option UsersResponse
deriving DecidableEq

/-- The directory service abstracted as a function from a request URL to
either a transport-level error message or a raw HTTP response. -/
def Server : Type := String → Except String HttpResponse

/-- Embeds fetch_users (src/main.rs lines 88-114): a transport error
propagates as is; a non-2xx status becomes an error whose message is
built from the status and the response body exactly as the bail does; a
2xx response is decoded, with a decode failure becoming an error. -/
def fetch_users (server : Server) (url : String) : Except String UsersResponse :=
  match server url with
  | Except.error e => Except.error e
  | Except.ok resp =>
    if 200 ≤ resp.status ∧ resp.status < 300 then
      match resp.parsed with
      | some r => Except.ok r
      | none => Except.error "error decoding response body"
    else
      Except.error ("fetching users; " ++ toString resp.status ++ ": " ++ resp.body)

/-- The direct-reports URL built for a manager id (src/main.rs lines
122-125). -/
def dirUrl (id : String) : String :=
  "https://graph.microsoft.com/beta/users/" ++ id ++ "/directReports"

/-- One observable event of a run: a directory fetch of a URL, or a row
written to standard output. -/
inductive Ev where
  | fetch (url : String)
  | emit (line : String)
deriving DecidableEq

/-- A pending piece of work of fetch_reportee_tree_recursive
(src/main.rs lines 116-149): page is one iteration of the pagination
loop at a given URL for a given manager; kids is the for-loop over the
reportees of one fetched page. -/
inductive Frame where
  | page (url : String) (manager : User)
  | kids (reportees : List User) (manager : User)

/-- Embeds fetch_reportee_tree_recursive (src/main.rs lines 116-149) as
a fueled interpreter, returning the trace of fetch and emit events in
program order together with the error, if any, that aborted the run.
A page frame fetches its URL, stops on an empty page, runs the for-loop
over the page's reportees, and then follows the continuation link if one
is present; a kids frame emits the row for each reportee and immediately
recurses into that reportee before moving to the next one.  Fuel only
bounds the unbounded Rust recursion; every theorem supplies enough. -/
def run (server : Server) : Nat → Frame → List Ev × Option String
  | 0, _ => ([], some "out of fuel")
  | f + 1, Frame.page url manager =>
    match fetch_users server url with
    | Except.error e => ([Ev.fetch url], some e)
    | Except.ok resp =>
      if resp.value = [] then ([Ev.fetch url], none)
      else
        match run server f (Frame.kids resp.value manager) with
        | (t1, some e) => (Ev.fetch url :: t1, some e)
        | (t1, none) =>
          match resp.next_link with
          | none => (Ev.fetch url :: t1, none)
          | some nxt =>
            match run server f (Frame.page nxt manager) with
            | (t2, e2) => (Ev.fetch url :: (t1 ++ t2), e2)
  | _ + 1, Frame.kids [] _ => ([], none)
  | f + 1, Frame.kids (r :: rs) manager =>
    match run server f (Frame.page (dirUrl r.id) r) with
    | (t1, some e) => (Ev.emit (rowLine r manager) :: t1, some e)
    | (t1, none) =>
      match run server f (Frame.kids rs manager) with
      | (t2, e2) => (Ev.emit (rowLine r manager) :: (t1 ++ t2), e2)

/-- The output rows carried by a trace, in order. -/
def rowsOfTrace (t : List Ev) : List String :=
  t.filterMap fun e =>
    match e with
    | Ev.emit s => some s
    | Ev.fetch _ => none

/-- Embeds the output of a whole run of main (src/main.rs lines 76-79):
the header line, the root row with sentinel manager fields, then the
rows emitted by the traversal, together with the aborting error if
any. -/
def runOutput (server : Server) (fuel : Nat) (root : User) :
    List String × Option String :=
  match run server fuel (Frame.page (dirUrl root.id) root) with
  | (t, e) => (headerLine :: rootLine root :: rowsOfTrace t, e)

/-- The pagination-cursor skeleton of the loop in
fetch_reportee_tree_recursive (src/main.rs lines 127-146), with the
per-reportee body abstracted away: the list argument is the successive
pages the service returns for the query; each consumed page is one
fetch call; a page with zero records terminates at once, otherwise its
records are yielded and an absent continuation link terminates.  The
result is the yielded record sequence and the number of fetch calls. -/
def paginatePages : List UsersResponse → List User × Nat
  | [] => ([], 0)
  | p :: rest =>
    if p.value = [] then ([], 1)
    else
      match p.next_link with
      | none => (p.value, 1)
      | some _ =>
        match paginatePages rest with
        | (us, n) => (p.value ++ us, n + 1)

/-- A paged forest of org-chart subtrees, describing a direct-reports
listing as the directory serves it: nil ends the final page of the
listing; next url rest ends the current page with a continuation link
to url, where the later pages hold the subtrees of rest; and
cons u ukids rest is a reportee u on the current page, whose own (paged)
listing is ukids, followed by the remainder rest of the listing. -/
inductive PForest where
  | nil : PForest
  | next : String → PForest → PForest
  | cons : User → PForest → PForest → PForest

/-- The reportees on the current page of a listing, in order: the value
list the directory serves for that page. -/
def pageUsers : PForest → List User
  | PForest.nil => []
  | PForest.next _ _ => []
  | PForest.cons u _ rest => u :: pageUsers rest

/-- The continuation link the current page of a listing carries, if
any. -/
def pageLink : PForest → Option String
  | PForest.nil => none
  | PForest.next url _ => some url
  | PForest.cons _ _ rest => pageLink rest

/-- The current page of the listing does not open with a continuation
link, i.e. the page is not an empty page that still carries a link
(such a page would end pagination with users left unserved). -/
def notNext : PForest → Prop
  | PForest.next _ _ => False
  | _ => True

/-- Structural size of a paged listing, used to bound the fuel the
interpreter needs. -/
def sizeP : PForest → Nat
  | PForest.nil => 1
  | PForest.next _ rest => 1 + sizeP rest
  | PForest.cons _ ukids rest => 1 + sizeP ukids + sizeP rest

/-- The number of reportee nodes of a paged listing, over all its
pages. -/
def countP : PForest → Nat
  | PForest.nil => 0
  | PForest.next _ rest => countP rest
  | PForest.cons _ ukids rest => 1 + countP ukids + countP rest

/-- The declarative depth-first trace of processing a listing under a
manager, from the cells of the current page onward: each reportee in
order contributes its row, the fetch of its own reports, and its whole
subtree before the next sibling; a page boundary contributes the fetch
of the next page. -/
def preTraceCells : User → PForest → List Ev
  | _, PForest.nil => []
  | m, PForest.next url rest => Ev.fetch url :: preTraceCells m rest
  | m, PForest.cons u ukids rest =>
    Ev.emit (rowLine u m) ::
      ((Ev.fetch (dirUrl u.id) :: preTraceCells u ukids) ++ preTraceCells m rest)

/-- The part of the declarative trace contributed by the current page's
cells only, stopping at the page boundary. -/
def cellTrace : User → PForest → List Ev
  | _, PForest.nil => []
  | _, PForest.next _ _ => []
  | m, PForest.cons u ukids rest =>
    Ev.emit (rowLine u m) ::
      ((Ev.fetch (dirUrl u.id) :: preTraceCells u ukids) ++ cellTrace m rest)

/-- The part of the declarative trace contributed from the current
page's continuation link onward; empty when the page carries none. -/
def linkTrace : User → PForest → List Ev
  | _, PForest.nil => []
  | m, PForest.next url rest => Ev.fetch url :: preTraceCells m rest
  | m, PForest.cons _ _ rest => linkTrace m rest

/-- The declarative depth-first rows of a listing under a manager: one
row per reportee node over all pages, preorder, left to right. -/
def preRowsCells : User → PForest → List String
  | _, PForest.nil => []
  | m, PForest.next _ rest => preRowsCells m rest
  | m, PForest.cons u ukids rest =>
    rowLine u m :: (preRowsCells u ukids ++ preRowsCells m rest)

/-- The server serves this paged listing: every continuation link serves
the next page of the listing, every reportee's direct-reports query
serves that reportee's own listing page by page, and no served page is
an empty page that still carries a link. -/
def agreeCells (server : Server) : PForest → Prop
  | PForest.nil => True
  | PForest.next url rest =>
    fetch_users server url = Except.ok ⟨pageUsers rest, pageLink rest⟩ ∧
      notNext rest ∧ agreeCells server rest
  | PForest.cons u ukids rest =>
    fetch_users server (dirUrl u.id)
        = Except.ok ⟨pageUsers ukids, pageLink ukids⟩ ∧
      notNext ukids ∧ agreeCells server ukids ∧ agreeCells server rest

/-- The server serves exactly the org tree rooted at the given user,
with the root's direct reports listed, possibly across several pages, by
the paged listing kids. -/
def agreeRoot (server : Server) (root : User) (kids : PForest) : Prop :=
  fetch_users server (dirUrl root.id)
      = Except.ok ⟨pageUsers kids, pageLink kids⟩ ∧
    notNext kids ∧ agreeCells server kids

/-- Prepends a character to the first group of a group list; helper for
the row splitter. -/
def consHead (c : Char) : List (List Char) → List (List Char)
  | [] => [[c]]
  | g :: gs => (c :: g) :: gs

/-- Splits a character list on the two-character delimiter of the row
format, comma then space, scanning left to right. -/
def splitCore : List Char → List (List Char)
  | [] => [[]]
  | [c] => [[c]]
  | c :: d :: rest =>
    if c = ',' ∧ d = ' ' then [] :: splitCore rest
    else consHead c (splitCore (d :: rest))

/-- Whether a character list contains the two-character delimiter. -/
def hasSep : List Char → Bool
  | [] => false
  | [_] => false
  | c :: d :: rest => (c == ',' && d == ' ') || hasSep (d :: rest)

/-- Splits an output row back into its field values on the documented
delimiter. -/
def splitRow (s : String) : List String :=
  (splitCore s.data).map fun l => String.mk l

/-- Joins the field character lists with the delimiter; the character
level image of sepJoin. -/
def joinChars : List (List Char) → List Char
  | [] => []
  | [f] => f
  | f :: g :: rest => f ++ ',' :: ' ' :: joinChars (g :: rest)

/-- Concrete root user for the fixture hierarchy. -/
def wRoot : User := ⟨"root", "Root User", none, none, none, none⟩

/-- Concrete reportee A of the fixture hierarchy, with a vendor job
title and an off-shore office location. -/
def wA : User :=
  ⟨"A", "Alice", some "Senior OUTSOURCE Engineer", some "Engineering",
   some "alice@example.org", some "Off-Shore Hub 3"⟩

/-- Concrete reportee B of the fixture hierarchy, an employee on
site. -/
def wB : User :=
  ⟨"B", "Bob", some "Staff Engineer", none, none, some "Building 12"⟩

/-- Concrete reportee C of the fixture hierarchy, all optional fields
absent. -/
def wC : User := ⟨"C", "Carol", none, none, none, none⟩

/-- A concrete directory service realizing the fixture hierarchy
root to A and B, A to C, B and C leaves, each reports list a single
page. -/
def wServer : Server := fun url =>
  if url = dirUrl "root" then Except.ok ⟨200, "", some ⟨[wA, wB], none⟩⟩
  else if url = dirUrl "A" then Except.ok ⟨200, "", some ⟨[wC], none⟩⟩
  else if url = dirUrl "B" then Except.ok ⟨200, "", some ⟨[], none⟩⟩
  else if url = dirUrl "C" then Except.ok ⟨200, "", some ⟨[], none⟩⟩
  else Except.error "unexpected url"

/-- A concrete directory service whose fetch of the reports of A
answers with a non-2xx response, while the root query succeeds with the
page A, B. -/
def wErrServer : Server := fun url =>
  if url = dirUrl "root" then Except.ok ⟨200, "", some ⟨[wA, wB], none⟩⟩
  else if url = dirUrl "A" then Except.ok ⟨403, "access denied", none⟩
  else Except.error "unexpected url"

/-- The opaque continuation link of the two-page fixture. -/
def c4url2 : String := "https://graph.microsoft.com/beta/token/page2"

/-- A concrete directory service where the root's direct reports span
two pages: the first page holds A and carries a continuation link, the
second holds B; A and B are leaves. -/
def c4server : Server := fun url =>
  if url = dirUrl "root" then Except.ok ⟨200, "", some ⟨[wA], some c4url2⟩⟩
  else if url = c4url2 then Except.ok ⟨200, "", some ⟨[wB], none⟩⟩
  else if url = dirUrl "A" then Except.ok ⟨200, "", some ⟨[], none⟩⟩
  else if url = dirUrl "B" then Except.ok ⟨200, "", some ⟨[], none⟩⟩
  else Except.error "unexpected url"

/-- The event trace of the run on the two-page fixture. -/
def c4trace : List Ev :=
  (run c4server 9 (Frame.page (dirUrl "root") wRoot)).1

/-- The two-page hierarchy of c4server as a paged listing of the root's
direct reports: leaf A on the first page, a continuation link to the
second page, and leaf B on the second page. -/
def wKidsP : PForest :=
  PForest.cons wA PForest.nil
    (PForest.next c4url2 (PForest.cons wB PForest.nil PForest.nil))

/-- First page of a concrete three-page query: one record and a
continuation link. -/
def wPage1 : UsersResponse := ⟨[wA], some "tok1"⟩

/-- Second page of the concrete three-page query. -/
def wPage2 : UsersResponse := ⟨[wB], some "tok2"⟩

/-- Last page of the concrete three-page query: no continuation
link. -/
def wPage3 : UsersResponse := ⟨[wC], none⟩

end MGraph

namespace MGraph

/-- C5: for every UserRecord the classifier returns Vendor exactly when
the (sentinel-substituted) job title contains one of the case-sensitive
substrings CONSULT, OUTSOURCE, Outsource, else Employee, and Off-Shore
exactly when the office location contains Off-Shore or Off-Site, else
On-Site; in particular the four concrete examples of the spec hold. -/
theorem classifier_keywords (u : User) :
    ((u.get_category).1 = "Vendor" ↔
      (strContains u.get_job_title "CONSULT" ||
       strContains u.get_job_title "OUTSOURCE" ||
       strContains u.get_job_title "Outsource") = true) ∧
    ((u.get_category).1 = "Employee" ↔
      (strContains u.get_job_title "CONSULT" ||
       strContains u.get_job_title "OUTSOURCE" ||
       strContains u.get_job_title "Outsource") = false) ∧
    ((u.get_category).2 = "Off-Shore" ↔
      (strContains u.get_office_location "Off-Shore" ||
       strContains u.get_office_location "Off-Site") = true) ∧
    ((u.get_category).2 = "On-Site" ↔
      (strContains u.get_office_location "Off-Shore" ||
       strContains u.get_office_location "Off-Site") = false) ∧
    (User.get_category ⟨"1", "x", some "Senior OUTSOURCE Engineer", none, none, none⟩).1 = "Vendor" ∧
    (User.get_category ⟨"2", "x", some "Staff Engineer", none, none, none⟩).1 = "Employee" ∧
    (User.get_category ⟨"3", "x", none, none, none, some "Off-Shore Hub 3"⟩).2 = "Off-Shore" ∧
    (User.get_category ⟨"4", "x", none, none, none, some "Building 12"⟩).2 = "On-Site" := by
  refine ⟨?_, ?_, ?_, ?_, by decide, by decide, by decide, by decide⟩ <;>
    simp only [User.get_category, User.get_job_title, User.get_office_location,
      List.any_cons, List.any_nil, Bool.or_false]
  · cases h : (strContains (u.job_title.getD "unknown") "CONSULT" ||
        (strContains (u.job_title.getD "unknown") "OUTSOURCE" ||
          strContains (u.job_title.getD "unknown") "Outsource")) <;>
      simp [h, Bool.or_assoc]
  · cases h : (strContains (u.job_title.getD "unknown") "CONSULT" ||
        (strContains (u.job_title.getD "unknown") "OUTSOURCE" ||
          strContains (u.job_title.getD "unknown") "Outsource")) <;>
      simp [h, Bool.or_assoc]
  · cases h : (strContains (u.office_location.getD "unknown") "Off-Shore" ||
        strContains (u.office_location.getD "unknown") "Off-Site") <;>
      simp [h]
  · cases h : (strContains (u.office_location.getD "unknown") "Off-Shore" ||
        strContains (u.office_location.getD "unknown") "Off-Site") <;>
      simp [h]

/-- C6: for every UserRecord, each absent optional field renders as the
literal sentinel unknown, the substitution never makes the classifier
produce Vendor or Off-Shore (an absent job title classifies as Employee
and an absent office location as On-Site), and a row with all four
optional fields absent is the join of the two identity fields, four
sentinels, Employee and On-Site. -/
theorem missing_fields_unknown (u : User) :
    User.get_job_title { u with job_title := none } = "unknown" ∧
    (User.get_category { u with job_title := none }).1 = "Employee" ∧
    User.get_office_location { u with office_location := none } = "unknown" ∧
    (User.get_category { u with office_location := none }).2 = "On-Site" ∧
    User.get_email { u with mail := none } = "unknown" ∧
    User.get_department { u with department := none } = "unknown" ∧
    User.display { u with job_title := none, department := none,
                          mail := none, office_location := none }
      = sepJoin [u.id, u.display_name, "unknown", "unknown", "unknown",
                 "unknown", "Employee", "On-Site"] := by
  have hjt : (["CONSULT", "OUTSOURCE", "Outsource"].any
      (fun kw => strContains "unknown" kw)) = false := by decide
  have hol : (["Off-Shore", "Off-Site"].any
      (fun kw => strContains "unknown" kw)) = false := by decide
  refine ⟨rfl, ?_, rfl, ?_, rfl, rfl, ?_⟩
  · simp [User.get_category, hjt]
  · simp [User.get_category, hol]
  · simp [User.display, User.get_category, User.get_email, User.get_job_title,
      User.get_department, User.get_office_location, hjt, hol, sepJoin,
      String.append_assoc]

/-- C10: for every UserRecord and each optional field, the formatted row
and the derived categories with that field absent coincide with those
with that field present holding exactly the string unknown, so the
output cannot distinguish the two. -/
theorem absent_indistinguishable_from_unknown (u : User) :
    (User.display { u with job_title := none }
        = User.display { u with job_title := some "unknown" } ∧
      User.get_category { u with job_title := none }
        = User.get_category { u with job_title := some "unknown" }) ∧
    (User.display { u with department := none }
        = User.display { u with department := some "unknown" } ∧
      User.get_category { u with department := none }
        = User.get_category { u with department := some "unknown" }) ∧
    (User.display { u with mail := none }
        = User.display { u with mail := some "unknown" } ∧
      User.get_category { u with mail := none }
        = User.get_category { u with mail := some "unknown" }) ∧
    (User.display { u with office_location := none }
        = User.display { u with office_location := some "unknown" } ∧
      User.get_category { u with office_location := none }
        = User.get_category { u with office_location := some "unknown" }) := by
  refine ⟨⟨?_, ?_⟩, ⟨?_, ?_⟩, ⟨?_, ?_⟩, ⟨?_, ?_⟩⟩ <;>
    simp [User.display, User.get_category, User.get_email, User.get_job_title,
      User.get_department, User.get_office_location]

/-- Helper for the pagination claim: over a page list whose non-final
pages are all non-empty and all carry a continuation link and whose
final page carries none, the cursor consumes every page, yielding the
concatenation of the records in page order with one fetch per page. -/
theorem paginatePages_full (ps : List UsersResponse) (plast : UsersResponse)
    (hmid : ∀ p ∈ ps, p.value ≠ [] ∧ p.next_link ≠ none)
    (hlast : plast.next_link = none) :
    paginatePages (ps ++ [plast])
      = (((ps ++ [plast]).map UsersResponse.value).flatten, ps.length + 1) := by
  induction ps with
  | nil =>
    by_cases hv : plast.value = [] <;>
      simp [paginatePages, hv, hlast]
  | cons p ps ih =>
    obtain ⟨hv, hl⟩ := hmid p (List.mem_cons_self p ps)
    obtain ⟨tok, htok⟩ := Option.ne_none_iff_exists'.mp hl
    have ihx := ih fun q hq => hmid q (List.mem_cons_of_mem p hq)
    simp [paginatePages, hv, htok, ihx]

/-- C2: for a query answered by N pages whose first N-1 are non-empty
and carry a continuation link while the last carries none, the
pagination cursor makes exactly N fetch calls and yields exactly the
concatenation of the pages' records in page order; moreover a page with
zero records terminates after that single call even when it carries a
link, a page with no link terminates after that single call, and a
zero-record page with no link yields the empty sequence after one
call. -/
theorem pagination_cursor_pages (ps : List UsersResponse)
    (plast : UsersResponse)
    (hmid : ∀ p ∈ ps, p.value ≠ [] ∧ p.next_link ≠ none)
    (hlast : plast.next_link = none) :
    paginatePages (ps ++ [plast])
      = (((ps ++ [plast]).map UsersResponse.value).flatten, ps.length + 1) ∧
    (∀ (q : UsersResponse) (rest : List UsersResponse), q.value = [] →
      paginatePages (q :: rest) = ([], 1)) ∧
    (∀ (q : UsersResponse) (rest : List UsersResponse), q.next_link = none →
      q.value ≠ [] → paginatePages (q :: rest) = (q.value, 1)) ∧
    (∀ q : UsersResponse, q.value = [] → q.next_link = none →
      paginatePages [q] = ([], 1)) := by
  refine ⟨paginatePages_full ps plast hmid hlast, ?_, ?_, ?_⟩
  · intro q rest hq
    simp [paginatePages, hq]
  · intro q rest hq hv
    simp [paginatePages, hq, hv]
  · intro q hq _
    simp [paginatePages, hq]

/-- Witness for the pagination claim at a concrete three-page query. -/
theorem pagination_cursor_pages_witness :
    (∀ p ∈ [wPage1, wPage2], p.value ≠ [] ∧ p.next_link ≠ none) ∧
    wPage3.next_link = none ∧
    paginatePages ([wPage1, wPage2] ++ [wPage3])
      = ((([wPage1, wPage2] ++ [wPage3]).map UsersResponse.value).flatten,
         [wPage1, wPage2].length + 1) ∧
    paginatePages [wPage1, wPage2, wPage3] = ([wA, wB, wC], 3) :=
  ⟨by decide, by decide,
   (pagination_cursor_pages [wPage1, wPage2] wPage3 (by decide) (by decide)).1,
   by decide⟩

/-- C1: on every directory whose direct-reports relation matches the
fixture root to A and B, A to C, with B and C leaves, the traversal
fetches and emits depth-first, left to right: the trace is the root
fetch, the row for A, the full completion of A's subtree (C's row and
fetch), and only then the row for B; the whole output is the header, the
root row, then the rows for A, C, B in that order. -/
theorem traversal_fixture_depth_first (server : Server)
    (uroot uA uB uC : User) (f : Nat)
    (hroot : fetch_users server (dirUrl uroot.id) = Except.ok ⟨[uA, uB], none⟩)
    (hA : fetch_users server (dirUrl uA.id) = Except.ok ⟨[uC], none⟩)
    (hB : fetch_users server (dirUrl uB.id) = Except.ok ⟨[], none⟩)
    (hC : fetch_users server (dirUrl uC.id) = Except.ok ⟨[], none⟩) :
    run server (f + 6) (Frame.page (dirUrl uroot.id) uroot)
      = ([Ev.fetch (dirUrl uroot.id), Ev.emit (rowLine uA uroot),
          Ev.fetch (dirUrl uA.id), Ev.emit (rowLine uC uA),
          Ev.fetch (dirUrl uC.id), Ev.emit (rowLine uB uroot),
          Ev.fetch (dirUrl uB.id)], none) ∧
    runOutput server (f + 6) uroot
      = ([headerLine, rootLine uroot, rowLine uA uroot, rowLine uC uA,
          rowLine uB uroot], none) := by
  have hrun : run server (f + 6) (Frame.page (dirUrl uroot.id) uroot)
      = ([Ev.fetch (dirUrl uroot.id), Ev.emit (rowLine uA uroot),
          Ev.fetch (dirUrl uA.id), Ev.emit (rowLine uC uA),
          Ev.fetch (dirUrl uC.id), Ev.emit (rowLine uB uroot),
          Ev.fetch (dirUrl uB.id)], none) := by
    simp [run, hroot, hA, hB, hC]
  exact ⟨hrun, by simp [runOutput, hrun, rowsOfTrace]⟩

/-- Witness for the fixture traversal claim on a concrete directory. -/
theorem traversal_fixture_depth_first_witness :
    runOutput wServer 6 wRoot
      = ([headerLine, rootLine wRoot, rowLine wA wRoot, rowLine wC wA,
          rowLine wB wRoot], none) :=
  (traversal_fixture_depth_first wServer wRoot wA wB wC 0 rfl rfl rfl rfl).2

/-- C3: when the fetch of some node fails, the whole traversal aborts
with that error: on the fixture root to A and B, a non-2xx response for
the reports of A stops the run right after the row for A, the row for B
is never emitted, the rows already written stay in the output, the fetch
of A is attempted exactly once (the trace equality shows no retry), the
error reaches the top level unmodified, and its message contains the
response status and body; a transport error likewise propagates
verbatim. -/
theorem fetch_error_aborts_traversal (server : Server)
    (uroot uA uB : User) (st : Nat) (bd : String)
    (pj : Option UsersResponse) (f : Nat)
    (hroot : fetch_users server (dirUrl uroot.id) = Except.ok ⟨[uA, uB], none⟩)
    (hA2 : server (dirUrl uA.id) = Except.ok ⟨st, bd, pj⟩)
    (hst : ¬ (200 ≤ st ∧ st < 300)) :
    run server (f + 4) (Frame.page (dirUrl uroot.id) uroot)
      = ([Ev.fetch (dirUrl uroot.id), Ev.emit (rowLine uA uroot),
          Ev.fetch (dirUrl uA.id)],
         some ("fetching users; " ++ toString st ++ ": " ++ bd)) ∧
    runOutput server (f + 4) uroot
      = ([headerLine, rootLine uroot, rowLine uA uroot],
         some ("fetching users; " ++ toString st ++ ": " ++ bd)) ∧
    (∃ x y, "fetching users; " ++ toString st ++ ": " ++ bd
      = x ++ toString st ++ y) ∧
    (∃ z, "fetching users; " ++ toString st ++ ": " ++ bd = z ++ bd) ∧
    (∀ (server2 : Server) (e2 : String),
      fetch_users server2 (dirUrl uroot.id) = Except.ok ⟨[uA, uB], none⟩ →
      server2 (dirUrl uA.id) = Except.error e2 →
      run server2 (f + 4) (Frame.page (dirUrl uroot.id) uroot)
        = ([Ev.fetch (dirUrl uroot.id), Ev.emit (rowLine uA uroot),
            Ev.fetch (dirUrl uA.id)], some e2)) := by
  have hfA : fetch_users server (dirUrl uA.id)
      = Except.error ("fetching users; " ++ toString st ++ ": " ++ bd) := by
    simp [fetch_users, hA2, hst]
  have hrun : run server (f + 4) (Frame.page (dirUrl uroot.id) uroot)
      = ([Ev.fetch (dirUrl uroot.id), Ev.emit (rowLine uA uroot),
          Ev.fetch (dirUrl uA.id)],
         some ("fetching users; " ++ toString st ++ ": " ++ bd)) := by
    simp [run, hroot, hfA]
  refine ⟨hrun, by simp [runOutput, hrun, rowsOfTrace], ?_, ?_, ?_⟩
  · exact ⟨"fetching users; ", ": " ++ bd, by simp [String.append_assoc]⟩
  · exact ⟨"fetching users; " ++ toString st ++ ": ", rfl⟩
  · intro server2 e2 hroot2 hA3
    have hfA2 : fetch_users server2 (dirUrl uA.id) = Except.error e2 := by
      simp [fetch_users, hA3]
    simp [run, hroot2, hfA2]

/-- Witness for the abort-on-error claim on a concrete directory whose
fetch of the reports of A returns status 403. -/
theorem fetch_error_aborts_traversal_witness :
    runOutput wErrServer 4 wRoot
      = ([headerLine, rootLine wRoot, rowLine wA wRoot],
         some ("fetching users; " ++ toString 403 ++ ": " ++ "access denied")) :=
  (fetch_error_aborts_traversal wErrServer wRoot wA wB 403 "access denied"
    none 0 rfl rfl (by decide)).2.1

/-- C4 counterexample: the claim says every page fetch of a manager
precedes every fetch caused by recursion into that manager's reportees;
on the concrete two-page directory c4server the trace fetches the
reports of reportee A (index 2) strictly before the root's second page
c4url2 (index 3), so the claim is false. -/
theorem all_pages_before_recursion_false :
    ¬ (∀ i j : Nat, c4trace[i]? = some (Ev.fetch c4url2) →
        c4trace[j]? = some (Ev.fetch (dirUrl "A")) → i < j) := by
  intro h
  exact absurd (h 3 2 (by decide) (by decide)) (by decide)

/-- C4 amended: for a manager whose direct-reports list spans several
pages, pages are fetched lazily and in order: each page's reportees are
emitted and their subtrees fully recursed into before the manager's next
page is fetched, so the complete reports list is never materialized
before recursion begins; shown on the general two-page fixture, where
the trace is root page one, row for A, recursion fetch for A, root page
two, row for B, recursion fetch for B. -/
theorem pages_interleaved_with_recursion (server : Server)
    (uroot uA uB : User) (nxt : String) (f : Nat)
    (hroot : fetch_users server (dirUrl uroot.id) = Except.ok ⟨[uA], some nxt⟩)
    (hnxt : fetch_users server nxt = Except.ok ⟨[uB], none⟩)
    (hA : fetch_users server (dirUrl uA.id) = Except.ok ⟨[], none⟩)
    (hB : fetch_users server (dirUrl uB.id) = Except.ok ⟨[], none⟩) :
    run server (f + 5) (Frame.page (dirUrl uroot.id) uroot)
      = ([Ev.fetch (dirUrl uroot.id), Ev.emit (rowLine uA uroot),
          Ev.fetch (dirUrl uA.id), Ev.fetch nxt, Ev.emit (rowLine uB uroot),
          Ev.fetch (dirUrl uB.id)], none) := by
  simp [run, hroot, hnxt, hA, hB]

/-- Witness for the amended pagination-order claim on the concrete
two-page directory. -/
theorem pages_interleaved_with_recursion_witness :
    run c4server 5 (Frame.page (dirUrl "root") wRoot)
      = ([Ev.fetch (dirUrl "root"), Ev.emit (rowLine wA wRoot),
          Ev.fetch (dirUrl "A"), Ev.fetch c4url2, Ev.emit (rowLine wB wRoot),
          Ev.fetch (dirUrl "B")], none) :=
  pages_interleaved_with_recursion c4server wRoot wA wB c4url2 0 rfl rfl rfl rfl

/-- Appending strings concatenates their character lists. -/
theorem strData_append (a b : String) : (a ++ b).data = a.data ++ b.data :=
  rfl

/-- A character list without the delimiter splits into the single field
it spells. -/
theorem splitCore_noSep (l : List Char) (h : hasSep l = false) :
    splitCore l = [l] := by
  induction l with
  | nil => rfl
  | cons c l ih =>
    cases l with
    | nil => rfl
    | cons d rest =>
      have h2 := h
      simp only [hasSep, Bool.or_eq_false_iff, Bool.and_eq_false_iff,
        beq_eq_false_iff_ne] at h2
      have hcond : ¬ (c = ',' ∧ d = ' ') := by
        intro hc
        rcases h2.1 with hne | hne <;> exact hne (by simp [hc.1, hc.2])
      have hrest : hasSep (d :: rest) = false := by
        have := h
        simp only [hasSep, Bool.or_eq_false_iff] at this
        exact this.2
      simp [splitCore, hcond, ih hrest, consHead]

/-- Splitting a field without the delimiter followed by the delimiter
and a remainder yields the field and then the split of the
remainder. -/
theorem splitCore_append (f rest : List Char) (h : hasSep f = false) :
    splitCore (f ++ ',' :: ' ' :: rest) = f :: splitCore rest := by
  induction f with
  | nil => simp [splitCore]
  | cons c f ih =>
    cases f with
    | nil =>
      have hcond : ¬ (c = ',' ∧ (',' : Char) = ' ') := by
        intro hc
        exact absurd hc.2 (by decide)
      simp [splitCore, hcond, consHead]
    | cons d f2 =>
      have h2 := h
      simp only [hasSep, Bool.or_eq_false_iff, Bool.and_eq_false_iff,
        beq_eq_false_iff_ne] at h2
      have hcond : ¬ (c = ',' ∧ d = ' ') := by
        intro hc
        rcases h2.1 with hne | hne <;> exact hne (by simp [hc.1, hc.2])
      have hrest : hasSep (d :: f2) = false := by
        have := h
        simp only [hasSep, Bool.or_eq_false_iff] at this
        exact this.2
      have hstep : splitCore ((c :: d :: f2) ++ ',' :: ' ' :: rest)
          = consHead c (splitCore (d :: (f2 ++ ',' :: ' ' :: rest))) := by
        simp [splitCore, hcond]
      simp only [List.cons_append] at ih
      rw [hstep, ih hrest]
      rfl

/-- Splitting the delimiter-join of delimiter-free fields recovers the
fields. -/
theorem splitCore_joinChars (fs : List (List Char)) (hne : fs ≠ [])
    (h : ∀ f ∈ fs, hasSep f = false) :
    splitCore (joinChars fs) = fs := by
  induction fs with
  | nil => exact absurd rfl hne
  | cons f fs ih =>
    cases fs with
    | nil =>
      simp only [joinChars]
      exact splitCore_noSep f (h f (List.mem_cons_self f []))
    | cons g gs =>
      have hf := h f (List.mem_cons_self f (g :: gs))
      have hx := ih (by simp) fun q hq => h q (List.mem_cons_of_mem f hq)
      simp only [joinChars] at hx ⊢
      rw [splitCore_append f _ hf, hx]

/-- The character list of a delimiter-join of strings is the
character-level join of their character lists. -/
theorem sepJoin_data (fs : List String) :
    (sepJoin fs).data = joinChars (fs.map String.data) := by
  induction fs with
  | nil => rfl
  | cons f fs ih =>
    cases fs with
    | nil => rfl
    | cons g gs =>
      have hsepc : (", " : String).data = [',', ' '] := rfl
      simp only [sepJoin, joinChars, List.map_cons] at ih ⊢
      rw [strData_append, strData_append, ih, hsepc]
      simp

/-- Splitting the join of delimiter-free string fields on the delimiter
recovers the fields verbatim. -/
theorem splitRow_sepJoin (fs : List String) (hne : fs ≠ [])
    (h : ∀ f ∈ fs, hasSep f.data = false) :
    splitRow (sepJoin fs) = fs := by
  have hmap : ∀ q ∈ fs.map String.data, hasSep q = false := by
    intro q hq
    obtain ⟨f, hf, rfl⟩ := List.mem_map.mp hq
    exact h f hf
  have hne2 : fs.map String.data ≠ [] := by
    cases fs with
    | nil => exact absurd rfl hne
    | cons f fs => simp
  unfold splitRow
  rw [sepJoin_data, splitCore_joinChars (fs.map String.data) hne2 hmap,
    List.map_map]
  have : (fun l => String.mk l) ∘ String.data = id := by
    funext s
    rfl
  rw [this, List.map_id]

/-- A user row rendered by the Display implementation is the
delimiter-join of its eight fields. -/
theorem display_eq_sepJoin (u : User) :
    User.display u = sepJoin (fieldsOf u) := by
  simp [User.display, fieldsOf, sepJoin, String.append_assoc]

/-- A reportee row is the delimiter-join of its ten fields. -/
theorem rowLine_eq_sepJoin (u m : User) :
    rowLine u m = sepJoin (rowFields u m) := by
  simp [rowLine, rowFields, display_eq_sepJoin, fieldsOf, sepJoin,
    String.append_assoc]

/-- C8: for rows whose field values contain no embedded delimiter,
splitting the formatted row on the documented delimiter recovers the
original field values verbatim and in order: the eight fields of a user
row, and the ten fields of a reportee row with manager attribution. -/
theorem row_round_trip (u m : User)
    (h8 : ∀ f ∈ fieldsOf u, hasSep f.data = false)
    (h10 : ∀ f ∈ rowFields u m, hasSep f.data = false) :
    splitRow (User.display u) = fieldsOf u ∧ (fieldsOf u).length = 8 ∧
    splitRow (rowLine u m) = rowFields u m ∧
    (rowFields u m).length = 10 := by
  refine ⟨?_, rfl, ?_, rfl⟩
  · rw [display_eq_sepJoin]
    exact splitRow_sepJoin (fieldsOf u) (by simp [fieldsOf]) h8
  · rw [rowLine_eq_sepJoin]
    exact splitRow_sepJoin (rowFields u m) (by simp [rowFields, fieldsOf]) h10

/-- Witness for the round-trip claim at a concrete user and manager. -/
theorem row_round_trip_witness :
    splitRow (User.display wB) = fieldsOf wB ∧
    splitRow (rowLine wB wRoot) = rowFields wB wRoot :=
  ⟨(row_round_trip wB wRoot (by decide) (by decide)).1,
   (row_round_trip wB wRoot (by decide) (by decide)).2.2.1⟩

/-- A paged listing has positive structural size. -/
theorem sizeP_pos (fo : PForest) : 1 ≤ sizeP fo := by
  cases fo <;> simp only [sizeP] <;> omega

/-- The declarative trace of a listing splits into the current page's
cell part followed by its continuation part. -/
theorem preTraceCells_split (m : User) (fo : PForest) :
    preTraceCells m fo = cellTrace m fo ++ linkTrace m fo := by
  induction fo generalizing m with
  | nil => rfl
  | next url rest ih => rfl
  | cons u ukids rest ih1 ih2 =>
    simp [preTraceCells, cellTrace, linkTrace, ih2 m]

/-- A page with no continuation link contributes no continuation
trace. -/
theorem linkTrace_of_none (m : User) (fo : PForest)
    (h : pageLink fo = none) : linkTrace m fo = [] := by
  induction fo generalizing m with
  | nil => rfl
  | next url rest ih => simp [pageLink] at h
  | cons u ukids rest ih1 ih2 =>
    simp only [pageLink] at h
    simp [linkTrace, ih2 m h]

/-- The rows carried by the declarative depth-first trace of a paged
listing are its declarative depth-first rows: the continuation fetches
contribute none. -/
theorem rows_preTraceCells (m : User) (fo : PForest) :
    rowsOfTrace (preTraceCells m fo) = preRowsCells m fo := by
  induction fo generalizing m with
  | nil => rfl
  | next url rest ih =>
    simp only [preTraceCells, preRowsCells, rowsOfTrace,
      List.filterMap_cons] at ih ⊢
    rw [ih]
  | cons u ukids rest ih1 ih2 =>
    simp only [preTraceCells, preRowsCells, rowsOfTrace,
      List.filterMap_cons, List.filterMap_append] at ih1 ih2 ⊢
    rw [ih1, ih2]

/-- The declarative depth-first row list of a paged listing has exactly
one row per reportee node. -/
theorem len_preRowsCells (m : User) (fo : PForest) :
    (preRowsCells m fo).length = countP fo := by
  induction fo generalizing m with
  | nil => rfl
  | next url rest ih => simp [preRowsCells, countP, ih]
  | cons u ukids rest ih1 ih2 =>
    simp [preRowsCells, countP, ih1, ih2]
    omega

/-- Refinement of the traversal against a declarative paged listing:
when the directory serves the listing and the fuel covers twice its
size, the kids frame over the current page's reportees produces the
cell part of the declarative trace, a page frame at the continuation
link produces the continuation part, and a page frame at a URL serving
the listing produces its fetch followed by the full declarative
depth-first trace, always without error. -/
theorem run_paged (server : Server) (fo : PForest) :
    (∀ (m : User) (f : Nat), agreeCells server fo → 2 * sizeP fo ≤ f →
      run server f (Frame.kids (pageUsers fo) m) = (cellTrace m fo, none)) ∧
    (∀ (m : User) (f : Nat) (nxt : String), agreeCells server fo →
      1 + 2 * sizeP fo ≤ f → pageLink fo = some nxt →
      run server f (Frame.page nxt m) = (linkTrace m fo, none)) ∧
    (∀ (url : String) (m : User) (f : Nat),
      fetch_users server url = Except.ok ⟨pageUsers fo, pageLink fo⟩ →
      notNext fo → agreeCells server fo → 2 + 2 * sizeP fo ≤ f →
      run server f (Frame.page url m)
        = (Ev.fetch url :: preTraceCells m fo, none)) := by
  induction fo with
  | nil =>
    refine ⟨?_, ?_, ?_⟩
    · intro m f _ hf
      obtain ⟨f1, rfl⟩ : ∃ f1, f = f1 + 1 := ⟨f - 1, by simp [sizeP] at hf; omega⟩
      simp [run, pageUsers, cellTrace]
    · intro m f nxt _ _ hlink
      simp [pageLink] at hlink
    · intro url m f hfetch _ _ hf
      obtain ⟨f1, rfl⟩ : ∃ f1, f = f1 + 1 := ⟨f - 1, by simp [sizeP] at hf; omega⟩
      simp only [pageUsers, pageLink] at hfetch
      simp [run, hfetch, preTraceCells]
  | next url rest ih =>
    obtain ⟨ihK, ihL, ihP⟩ := ih
    refine ⟨?_, ?_, ?_⟩
    · intro m f _ hf
      obtain ⟨f1, rfl⟩ : ∃ f1, f = f1 + 1 :=
        ⟨f - 1, by have := sizeP_pos (PForest.next url rest); omega⟩
      simp [run, pageUsers, cellTrace]
    · intro m f nxt hagree hf hlink
      simp only [pageLink] at hlink
      obtain rfl : url = nxt := by injection hlink
      simp only [agreeCells] at hagree
      obtain ⟨hfetch, hnn, hrest⟩ := hagree
      have := ihP url m f hfetch hnn hrest
        (by simp only [sizeP] at hf; omega)
      simpa [linkTrace] using this
    · intro url2 m f hfetch hnn _ _
      simp [notNext] at hnn
  | cons u ukids rest ih1 ih2 =>
    obtain ⟨ihK1, ihL1, ihP1⟩ := ih1
    obtain ⟨ihK2, ihL2, ihP2⟩ := ih2
    have hK : ∀ (m : User) (f : Nat),
        agreeCells server (PForest.cons u ukids rest) →
        2 * sizeP (PForest.cons u ukids rest) ≤ f →
        run server f (Frame.kids (pageUsers (PForest.cons u ukids rest)) m)
          = (cellTrace m (PForest.cons u ukids rest), none) := by
      intro m f hagree hf
      simp only [agreeCells] at hagree
      obtain ⟨hfu, hnnk, hk, hrest⟩ := hagree
      simp only [sizeP] at hf
      have hpos1 := sizeP_pos ukids
      have hpos2 := sizeP_pos rest
      obtain ⟨f1, rfl⟩ : ∃ f1, f = f1 + 1 := ⟨f - 1, by omega⟩
      have hpage := ihP1 (dirUrl u.id) u f1 hfu hnnk hk (by omega)
      have hkrest := ihK2 m f1 hrest (by omega)
      simp [run, pageUsers, hpage, hkrest, cellTrace]
    refine ⟨hK, ?_, ?_⟩
    · intro m f nxt hagree hf hlink
      simp only [agreeCells] at hagree
      obtain ⟨hfu, hnnk, hk, hrest⟩ := hagree
      simp only [pageLink] at hlink
      have hpos1 := sizeP_pos ukids
      have := ihL2 m f nxt hrest (by simp only [sizeP] at hf; omega) hlink
      simpa [linkTrace] using this
    · intro url m f hfetch hnn hagree hf
      have hagree2 := hagree
      simp only [agreeCells] at hagree2
      obtain ⟨hfu, hnnk, hk, hrest⟩ := hagree2
      simp only [pageUsers, pageLink] at hfetch
      obtain ⟨f1, rfl⟩ : ∃ f1, f = f1 + 1 := ⟨f - 1, by omega⟩
      have hkids := hK m f1 hagree (by omega)
      simp only [pageUsers] at hkids
      cases hpl : pageLink rest with
      | none =>
        have hempty : linkTrace m (PForest.cons u ukids rest) = [] :=
          linkTrace_of_none m _ (by simp [pageLink, hpl])
        have hsplit := preTraceCells_split m (PForest.cons u ukids rest)
        rw [hempty, List.append_nil] at hsplit
        rw [hpl] at hfetch
        simp [run, hfetch, hkids, hsplit]
      | some nxt =>
        have hlinkrun := ihL2 m f1 nxt hrest
          (by simp only [sizeP] at hf; have := sizeP_pos ukids; omega) hpl
        have hlink2 : run server f1 (Frame.page nxt m)
            = (linkTrace m (PForest.cons u ukids rest), none) := by
          simpa [linkTrace] using hlinkrun
        have hsplit := preTraceCells_split m (PForest.cons u ukids rest)
        rw [hpl] at hfetch
        simp [run, hfetch, hkids, hlink2, hsplit]

/-- C7: for every successful run, here every run over a directory that
serves some paged org listing below the root (every reports list a
chain of pages linked by continuation URLs, with only a final page
possibly empty), standard output is exactly the fixed header line, then
the root row with the sentinel manager fields, then one row per
descendant in depth-first preorder with its real manager attribution,
with nothing after them; the header names ten columns, every row is the
comma-and-space join of its fields in the fixed order (no quoting or
escaping), and the number of descendant rows equals the number of
descendants. -/
theorem output_structure (server : Server) (root : User) (kids : PForest)
    (f : Nat) (hagree : agreeRoot server root kids)
    (hfuel : 2 + 2 * sizeP kids ≤ f) :
    runOutput server f root
      = (headerLine :: rootLine root :: preRowsCells root kids, none) ∧
    headerLine = sepJoin ["id", "display_name", "mail", "job_title",
      "department", "office_location", "employment_type", "location",
      "manager_id", "manager_display_name"] ∧
    (["id", "display_name", "mail", "job_title", "department",
      "office_location", "employment_type", "location", "manager_id",
      "manager_display_name"] : List String).length = 10 ∧
    rootLine root = User.display root ++ ", none, none" ∧
    (∀ u m : User, rowLine u m = sepJoin (rowFields u m)) ∧
    (preRowsCells root kids).length = countP kids := by
  obtain ⟨hfetch, hnn, hcells⟩ := hagree
  have hrun := (run_paged server kids).2.2 (dirUrl root.id) root f hfetch
    hnn hcells hfuel
  refine ⟨?_, rfl, rfl, rfl, rowLine_eq_sepJoin, len_preRowsCells root kids⟩
  simp [runOutput, hrun, rowsOfTrace]
  simpa [rowsOfTrace] using rows_preTraceCells root kids

/-- Witness for the output-structure claim on the concrete two-page
directory: the root's reports span two pages joined by a continuation
link, and the output is still header, root row, then the depth-first
rows. -/
theorem output_structure_witness :
    runOutput c4server 14 wRoot
      = ([headerLine, rootLine wRoot, rowLine wA wRoot,
          rowLine wB wRoot], none) :=
  (output_structure c4server wRoot wKidsP 14
    ⟨rfl, trivial, rfl, trivial, trivial, rfl, trivial, rfl, trivial,
     trivial, trivial⟩
    (by decide)).1

end MGraph
